import Mathlib

/-!
Verification of the dotenv core of `durableprogramming/dotenvk`
(`src/lib.rs`): line classifier, value decoder, line serializer,
key/value editor and shell escaper. Strings are modelled as `List Char`;
Rust's `str::lines` is modelled by `rustLines` below.
-/

namespace Dotenvk

/-- Double-quote character (written numerically to keep the file ASCII-simple). -/
def cDQ : Char := Char.ofNat 34

/-- Single-quote character. -/
def cSQ : Char := Char.ofNat 39

/-- Backtick character. -/
def cBT : Char := Char.ofNat 96

/-- Whitespace predicate modelling Rust `char::is_whitespace` on the ASCII range
(space, tab, line feed, vertical tab, form feed, carriage return). -/
def isWS (c : Char) : Bool :=
  c == ' ' || c == '\t' || c == '\n' || c == '\r' || c == Char.ofNat 11 || c == Char.ofNat 12

/-- Rust `str::trim_start`. -/
def trimStart (s : List Char) : List Char := s.dropWhile isWS

/-- Rust `str::trim_end`. -/
def trimEnd (s : List Char) : List Char := (s.reverse.dropWhile isWS).reverse

/-- Rust `str::trim`. -/
def trim (s : List Char) : List Char := trimEnd (trimStart s)

/-- The `EnvLine` enum of `lib.rs`. -/
inductive EnvLine : Type
  | keyValue (key value : List Char)
  | comment (raw : List Char)
  | empty (raw : List Char)
deriving DecidableEq

/-- Loop body of `parse_double_quoted` (lib.rs): the `Bool` is the `escaped` flag. -/
def parse_double_quoted_go : List Char → Bool → List Char
  | [], _ => []
  | c :: rest, true =>
      (if c = 'n' then ['\n']
       else if c = 'r' then ['\r']
       else if c = 't' then ['\t']
       else if c = '\\' then ['\\']
       else if c = cDQ then [cDQ]
       else if c = cSQ then [cSQ]
       else ['\\', c]) ++ parse_double_quoted_go rest false
  | c :: rest, false =>
      if c = '\\' then parse_double_quoted_go rest true
      else if c = cDQ then []
      else c :: parse_double_quoted_go rest false

/-- `parse_double_quoted` of lib.rs: skip the opening quote and scan. -/
def parse_double_quoted (s : List Char) : List Char :=
  parse_double_quoted_go (s.drop 1) false

/-- Loop body of `parse_single_quoted` (lib.rs). -/
def parse_single_quoted_go : List Char → List Char
  | [] => []
  | c :: rest => if c = cSQ then [] else c :: parse_single_quoted_go rest

/-- `parse_single_quoted` of lib.rs. -/
def parse_single_quoted (s : List Char) : List Char :=
  parse_single_quoted_go (s.drop 1)

/-- `parse_unquoted` of lib.rs: push characters until a `#`, then trim the end. -/
def parse_unquoted (s : List Char) : List Char :=
  trimEnd (s.takeWhile (fun c => c != '#'))

/-- `parse_value` of lib.rs. -/
def parse_value (raw : List Char) : List Char :=
  let trimmed := trimStart raw
  if trimmed = [] then []
  else if trimmed.head? = some cDQ then parse_double_quoted trimmed
  else if trimmed.head? = some cSQ then parse_single_quoted trimmed
  else parse_unquoted trimmed

/-- Split a character list at every line feed; the result is always nonempty. -/
def splitNL : List Char → List (List Char)
  | [] => [[]]
  | c :: rest =>
      match splitNL rest with
      | [] => [[c]]
      | p :: ps => if c = '\n' then [] :: p :: ps else (c :: p) :: ps

/-- Drop a single trailing carriage return, as Rust `str::lines` does for
line-feed-terminated segments. -/
def stripCR (s : List Char) : List Char :=
  if s.getLast? = some '\r' then s.dropLast else s

/-- Helper for `rustLines`: the last split segment is the text after the final
line feed; it is dropped when empty and otherwise kept verbatim, while every
earlier (line-feed-terminated) segment loses one trailing carriage return. -/
def rustLinesAux : List (List Char) → List (List Char)
  | [] => []
  | [t] => if t = [] then [] else [t]
  | t :: ts => stripCR t :: rustLinesAux ts

/-- Model of Rust `str::lines` as used by `parse_env_file`. -/
def rustLines (s : List Char) : List (List Char) := rustLinesAux (splitNL s)

/-- Per-line classification: the closure body inside `parse_env_file` (lib.rs). -/
def classifyLine (line : List Char) : EnvLine :=
  if trim line = [] then .empty line
  else if (trimStart line).head? = some '#' then .comment line
  else if '=' ∈ line then
    .keyValue (trim (line.takeWhile (fun c => c != '=')))
      (parse_value ((line.dropWhile (fun c => c != '=')).drop 1))
  else .comment line

/-- `parse_env_file` of lib.rs. -/
def parse_env_file (content : List Char) : List EnvLine :=
  (rustLines content).map classifyLine

/-- Rendering of one line inside `write_env_file` (lib.rs). -/
def renderLine : EnvLine → List Char
  | .keyValue key value => key ++ '=' :: value
  | .comment raw => raw
  | .empty raw => raw

/-- Rust `Vec::join` with a single line-feed separator. -/
def joinNL : List (List Char) → List Char
  | [] => []
  | [t] => t
  | t :: ts => t ++ '\n' :: joinNL ts

/-- `write_env_file` of lib.rs. -/
def write_env_file (lines : List EnvLine) : List Char :=
  let content := joinNL (lines.map renderLine)
  if content = [] then [] else content ++ ['\n']

/-- The malformed-pair error produced by `set_env_vars` (lib.rs carries the
offending pair in an `anyhow` message). -/
inductive SetError : Type
  | malformedPair (pair : List Char)
deriving DecidableEq

/-- Inner loop of `set_env_vars`: update the value of the first `KeyValue`
whose key matches; the `Bool` is the `found` flag. -/
def update_first (key value : List Char) : List EnvLine → List EnvLine × Bool
  | [] => ([], false)
  | .keyValue k v :: rest =>
      if k = key then (.keyValue k value :: rest, true)
      else
        let r := update_first key value rest
        (.keyValue k v :: r.1, r.2)
  | l :: rest =>
      let r := update_first key value rest
      (l :: r.1, r.2)

/-- Applying one well-formed pair: update the first match in place, otherwise
append a new `KeyValue` (lib.rs, body of the `for pair` loop after splitting). -/
def apply_pair (lines : List EnvLine) (key value : List Char) : List EnvLine :=
  let r := update_first key value lines
  if r.2 then r.1 else lines ++ [.keyValue key value]

/-- One iteration of the `for pair in pairs` loop of `set_env_vars`. -/
def set_one (lines : List EnvLine) (pair : List Char) : Except SetError (List EnvLine) :=
  if '=' ∈ pair then
    .ok (apply_pair lines
      (trim (pair.takeWhile (fun c => c != '=')))
      ((pair.dropWhile (fun c => c != '=')).drop 1))
  else .error (.malformedPair pair)

/-- `set_env_vars` of lib.rs. Rust mutates `lines` through `&mut` and returns
`Result<()>`; here the pair is (state of `lines` when the function returns,
optional error). On the first malformed pair the current state is kept and the
error is returned, so earlier mutations in the same call remain applied. -/
def set_env_vars (lines : List EnvLine) : List (List Char) → List EnvLine × Option SetError
  | [] => (lines, none)
  | p :: ps =>
      match set_one lines p with
      | .ok l2 => set_env_vars l2 ps
      | .error e => (lines, some e)

/-- The trigger set of `shell_escape` (the `matches!` in lib.rs). -/
def triggerChar (c : Char) : Bool :=
  c == ' ' || c == '\t' || c == '\n' || c == '\r' || c == cDQ || c == cSQ ||
  c == '$' || c == cBT || c == '\\' || c == '!' || c == '*' || c == '?' ||
  c == '[' || c == ']' || c == Char.ofNat 123 || c == Char.ofNat 125 ||
  c == '(' || c == ')' || c == '<' || c == '>' || c == '&' || c == '|' ||
  c == ';' || c == '#'

/-- Per-character output inside the quoting branch of `shell_escape`. -/
def escChar (c : Char) : List Char :=
  if c = cDQ then ['\\', cDQ]
  else if c = '\\' then ['\\', '\\']
  else if c = '$' then ['\\', '$']
  else if c = cBT then ['\\', cBT]
  else if c = '!' then ['\\', '!']
  else if c = '\n' then ['\\', 'n']
  else if c = '\r' then ['\\', 'r']
  else if c = '\t' then ['\\', 't']
  else [c]

/-- `shell_escape` of lib.rs. -/
def shell_escape (value : List Char) : List Char :=
  if value.any triggerChar then
    cDQ :: ((value.map escChar).flatten ++ [cDQ])
  else value

/-- States of a small shell-word syntax checker: outside quotes, inside a
double-quoted segment, and inside a double-quoted segment right after a
backslash. -/
inductive SState : Type
  | unq | dq | dqEsc
deriving DecidableEq

/-- One step of the shell-word checker. Outside quotes every character of the
escaper's trigger set is rejected (those are exactly the shell-significant
characters); inside double quotes an unescaped dollar, backtick, line feed or
carriage return is rejected, a double quote closes the segment and a backslash
escapes the next character. -/
def shellStep : SState → Char → Option SState
  | .unq, c =>
      if c = cDQ then some .dq
      else if triggerChar c then none
      else some .unq
  | .dq, c =>
      if c = cDQ then some .unq
      else if c = '\\' then some .dqEsc
      else if c == '$' || c == cBT || c == '\n' || c == '\r' then none
      else some .dq
  | .dqEsc, _ => some .dq

/-- Run the checker over a token. -/
def shellScan : SState → List Char → Option SState
  | st, [] => some st
  | st, c :: rest =>
      match shellStep st c with
      | none => none
      | some st2 => shellScan st2 rest

/-- A token is safe as the right-hand side of a shell assignment when the
checker accepts it starting and ending outside quotes: all quotes are balanced,
no shell-significant character appears unquoted, and no unescaped dollar,
backtick or raw line break appears inside the quotes. -/
def shellSafeToken (t : List Char) : Prop :=
  shellScan .unq t = some .unq

instance (t : List Char) : Decidable (shellSafeToken t) := by
  unfold shellSafeToken; infer_instance

/-! ### Basic facts about `dropWhile`, `takeWhile` and trimming -/

theorem dw_cons_of_neg {p : Char → Bool} {c : Char} {r : List Char} (h : p c = false) :
    (c :: r).dropWhile p = c :: r := by
  simp [List.dropWhile, h]

theorem dw_eq_self_cons {p : Char → Bool} {c : Char} {r : List Char}
    (h : (c :: r).dropWhile p = c :: r) : p c = false := by
  by_contra hc
  have hc' : p c = true := by
    cases hpc : p c with
    | false => exact absurd hpc hc
    | true => rfl
  have h2 : (c :: r).dropWhile p = r.dropWhile p := by simp [List.dropWhile, hc']
  have hlen : (r.dropWhile p).length ≤ r.length :=
    (List.dropWhile_sublist p).length_le
  rw [h2] at h
  have := congrArg List.length h
  simp at this
  omega

theorem dw_head {p : Char → Bool} : ∀ {s : List Char} {c : Char} {r : List Char},
    s.dropWhile p = c :: r → p c = false := by
  intro s
  induction s with
  | nil => intro c r h; simp [List.dropWhile] at h
  | cons a s ih =>
      intro c r h
      cases hpa : p a with
      | true => exact ih (by simpa [List.dropWhile, hpa] using h)
      | false =>
          rw [dw_cons_of_neg hpa] at h
          cases h
          exact hpa

theorem dw_dw {p : Char → Bool} (s : List Char) :
    (s.dropWhile p).dropWhile p = s.dropWhile p := by
  cases h : s.dropWhile p with
  | nil => simp
  | cons c r => exact dw_cons_of_neg (dw_head h)

theorem dw_pre {p : Char → Bool} {s t : List Char}
    (hs : s.dropWhile p = s) (ht : List.IsPrefix t s) : t.dropWhile p = t := by
  cases t with
  | nil => simp
  | cons c r =>
      obtain ⟨u, hu⟩ := ht
      have : s = c :: (r ++ u) := by rw [← hu]; simp
      rw [this] at hs
      exact dw_cons_of_neg (dw_eq_self_cons hs)

theorem mem_dropWhile_of_neg {p : Char → Bool} {c : Char} :
    ∀ {s : List Char}, c ∈ s → p c = false → c ∈ s.dropWhile p := by
  intro s
  induction s with
  | nil => intro h _; simp at h
  | cons a s ih =>
      intro h hc
      cases hpa : p a with
      | true =>
          rcases List.mem_cons.mp h with h1 | h1
          · subst h1; rw [hpa] at hc; cases hc
          · simpa [List.dropWhile, hpa] using ih h1 hc
      | false => simpa [dw_cons_of_neg hpa] using h

theorem trimStart_suffix (s : List Char) : List.IsSuffix (trimStart s) s :=
  List.dropWhile_suffix isWS

theorem trimEnd_front (s : List Char) : List.IsPrefix (trimEnd s) s := by
  have h : List.IsSuffix (s.reverse.dropWhile isWS) s.reverse :=
    List.dropWhile_suffix isWS
  have h2 := List.reverse_prefix.mpr h
  simpa [trimEnd] using h2

theorem trim_sublist (s : List Char) : List.Sublist (trim s) s :=
  ((trimEnd_front (trimStart s)).sublist).trans ((trimStart_suffix s).sublist)

theorem trimStart_eq_self_of_trim {s : List Char} (h : trim s = s) : trimStart s = s := by
  have h1 : (trim s).length ≤ (trimStart s).length :=
    (trimEnd_front (trimStart s)).sublist.length_le
  have h2 : (trimStart s).length ≤ s.length := (trimStart_suffix s).sublist.length_le
  have h3 : (trim s).length = s.length := by rw [h]
  exact (trimStart_suffix s).sublist.eq_of_length (by omega)

theorem trimEnd_eq_self_of_trim {s : List Char} (h : trim s = s) : trimEnd s = s := by
  have h1 := trimStart_eq_self_of_trim h
  have : trim s = trimEnd s := by rw [trim, h1]
  rw [← this, h]

theorem trim_trim (s : List Char) : trim (trim s) = trim s := by
  have hu : (trimStart s).dropWhile isWS = trimStart s := dw_dw s
  have hx : trimStart (trim s) = trim s :=
    dw_pre hu (trimEnd_front (trimStart s))
  have hy : trimEnd (trim s) = trim s := by
    show trimEnd (trimEnd (trimStart s)) = trimEnd (trimStart s)
    simp only [trimEnd, List.reverse_reverse]
    rw [dw_dw]
  rw [trim, hx, hy]

theorem trim_ne_nil {s : List Char} {c : Char} (hc : c ∈ s) (hw : isWS c = false) :
    trim s ≠ [] := by
  have h1 : c ∈ trimStart s := mem_dropWhile_of_neg hc hw
  have h2 : c ∈ trim s := by
    have : c ∈ (trimStart s).reverse := List.mem_reverse.mpr h1
    have := mem_dropWhile_of_neg this hw
    exact List.mem_reverse.mp (by simpa [trim, trimEnd] using this)
  exact List.ne_nil_of_mem h2

theorem dropWhile_eq_nil_of_all {p : Char → Bool} :
    ∀ {s : List Char}, (∀ c ∈ s, p c = true) → s.dropWhile p = [] := by
  intro s
  induction s with
  | nil => simp
  | cons a s ih =>
      intro h
      have ha := h a (by simp)
      simp only [List.dropWhile, ha]
      exact ih fun c hc => h c (by simp [hc])

theorem trim_all_ws {s : List Char} (h : ∀ c ∈ s, isWS c = true) : trim s = [] := by
  have h1 : trimStart s = [] := dropWhile_eq_nil_of_all h
  simp [trim, h1, trimEnd]

theorem trimEnd_getLast_not_ws {s : List Char} {c : Char}
    (h : trimEnd s = s) (hl : s.getLast? = some c) : isWS c = false := by
  have hrev : s.reverse.dropWhile isWS = s.reverse := by
    have := congrArg List.reverse h
    simpa [trimEnd] using this
  have hc : s.reverse.head? = some c := by rw [List.head?_reverse]; exact hl
  cases hr : s.reverse with
  | nil => rw [hr] at hc; cases hc
  | cons a r =>
      rw [hr] at hrev hc
      have : a = c := by simpa using hc
      subst this
      exact dw_eq_self_cons hrev

theorem tw_all {p : Char → Bool} :
    ∀ {s : List Char}, (∀ c ∈ s, p c = true) → s.takeWhile p = s := by
  intro s
  induction s with
  | nil => simp
  | cons a s ih =>
      intro h
      have ha := h a (by simp)
      simp only [List.takeWhile, ha]
      exact congrArg (a :: ·) (ih fun c hc => h c (by simp [hc]))

theorem tw_append {p : Char → Bool} {b : Char} (v : List Char) :
    ∀ {k : List Char}, (∀ a ∈ k, p a = true) → p b = false →
    (k ++ b :: v).takeWhile p = k := by
  intro k
  induction k with
  | nil => intro _ hb; simp [List.takeWhile, hb]
  | cons a k ih =>
      intro h hb
      have ha := h a (by simp)
      simp only [List.cons_append, List.takeWhile, ha]
      exact congrArg (a :: ·) (ih (fun c hc => h c (by simp [hc])) hb)

theorem dw_append {p : Char → Bool} {b : Char} (v : List Char) :
    ∀ {k : List Char}, (∀ a ∈ k, p a = true) → p b = false →
    (k ++ b :: v).dropWhile p = b :: v := by
  intro k
  induction k with
  | nil => intro _ hb; simp [List.dropWhile, hb]
  | cons a k ih =>
      intro h hb
      have ha := h a (by simp)
      simp only [List.cons_append, List.dropWhile, ha]
      exact ih (fun c hc => h c (by simp [hc])) hb

/-! ### Facts about line splitting and joining -/

theorem splitNL_ne_nil (s : List Char) : splitNL s ≠ [] := by
  cases s with
  | nil => simp [splitNL]
  | cons c rest =>
      simp only [splitNL]
      cases h : splitNL rest with
      | nil => simp
      | cons p ps =>
          by_cases hc : c = '\n' <;> simp [hc]

theorem splitNL_cons_nl (r : List Char) :
    ∀ {t : List Char}, '\n' ∉ t → splitNL (t ++ '\n' :: r) = t :: splitNL r := by
  intro t
  induction t with
  | nil =>
      intro _
      simp only [List.nil_append, splitNL]
      cases h : splitNL r with
      | nil => exact absurd h (splitNL_ne_nil r)
      | cons p ps => simp
  | cons c t ih =>
      intro h
      have hc : c ≠ '\n' := fun hh => h (by simp [hh])
      have ht : '\n' ∉ t := fun hh => h (by simp [hh])
      have h2 : splitNL ((c :: t) ++ '\n' :: r) =
          match splitNL (t ++ '\n' :: r) with
          | [] => [[c]]
          | p :: ps => if c = '\n' then [] :: p :: ps else (c :: p) :: ps := rfl
      rw [h2, ih ht]
      simp [hc]

theorem splitNL_no_nl : ∀ (s : List Char), ∀ u ∈ splitNL s, '\n' ∉ u := by
  intro s
  induction s with
  | nil => intro u hu; simp [splitNL] at hu; simp [hu]
  | cons c rest ih =>
      intro u hu
      simp only [splitNL] at hu
      cases h : splitNL rest with
      | nil => exact absurd h (splitNL_ne_nil rest)
      | cons p ps =>
          rw [h] at hu
          by_cases hc : c = '\n'
          · simp [hc] at hu
            rcases hu with hu | hu | hu
            · simp [hu]
            · exact ih u (by rw [h]; simp [hu])
            · exact ih u (by rw [h]; simp [hu])
          · simp [hc] at hu
            rcases hu with hu | hu
            · subst hu
              intro hmem
              rcases List.mem_cons.mp hmem with h1 | h1
              · exact hc h1.symm
              · exact ih p (by rw [h]; simp) h1
            · exact ih u (by rw [h]; simp [hu])

theorem splitNL_append_nl : ∀ (s : List Char), splitNL (s ++ ['\n']) = splitNL s ++ [[]] := by
  intro s
  induction s with
  | nil =>
      simp only [List.nil_append, splitNL]
      cases h : splitNL ([] : List Char) with
      | nil => exact absurd h (splitNL_ne_nil [])
      | cons p ps => simp [splitNL] at h; simp [h]
  | cons c rest ih =>
      have h2 : splitNL ((c :: rest) ++ ['\n']) =
          match splitNL (rest ++ ['\n']) with
          | [] => [[c]]
          | p :: ps => if c = '\n' then [] :: p :: ps else (c :: p) :: ps := rfl
      have h3 : splitNL (c :: rest) =
          match splitNL rest with
          | [] => [[c]]
          | p :: ps => if c = '\n' then [] :: p :: ps else (c :: p) :: ps := rfl
      rw [h2, ih, h3]
      cases h : splitNL rest with
      | nil => exact absurd h (splitNL_ne_nil rest)
      | cons p ps =>
          by_cases hc : c = '\n' <;> simp [hc]

theorem splitNL_length (s : List Char) : (splitNL s).length = s.count '\n' + 1 := by
  induction s with
  | nil => simp [splitNL]
  | cons c rest ih =>
      simp only [splitNL]
      cases h : splitNL rest with
      | nil => exact absurd h (splitNL_ne_nil rest)
      | cons p ps =>
          rw [h] at ih
          by_cases hc : c = '\n'
          · subst hc
            simp only [if_pos rfl, List.length_cons, List.count_cons]
            simp at ih ⊢
            omega
          · simp only [if_neg hc, List.length_cons, List.count_cons]
            simp [hc] at ih ⊢
            omega

theorem stripCR_eq_self {s : List Char} (h : s.getLast? ≠ some '\r') : stripCR s = s := by
  simp [stripCR, h]

theorem rustLinesAux_cons {ts : List (List Char)} (t : List Char) (h : ts ≠ []) :
    rustLinesAux (t :: ts) = stripCR t :: rustLinesAux ts := by
  cases ts with
  | nil => exact absurd rfl h
  | cons t2 ts2 => rfl

theorem rustLinesAux_mem : ∀ {ps : List (List Char)} {t : List Char},
    t ∈ rustLinesAux ps → ∃ u ∈ ps, List.Sublist t u := by
  intro ps
  induction ps with
  | nil => intro t ht; simp [rustLinesAux] at ht
  | cons p ps ih =>
      intro t ht
      cases ps with
      | nil =>
          simp only [rustLinesAux] at ht
          by_cases hp : p = []
          · simp [hp] at ht
          · simp [hp] at ht
            exact ⟨p, by simp, ht ▸ List.Sublist.refl p⟩
      | cons p2 ps2 =>
          rw [rustLinesAux_cons p (by simp)] at ht
          rcases List.mem_cons.mp ht with h1 | h1
          · refine ⟨p, by simp, ?_⟩
            subst h1
            by_cases hl : p.getLast? = some '\r'
            · simp only [stripCR, if_pos hl]
              exact (List.dropLast_prefix p).sublist
            · rw [stripCR_eq_self hl]
          · obtain ⟨u, hu, hsub⟩ := ih h1
            exact ⟨u, by simp [hu], hsub⟩

theorem rustLines_no_nl {s : List Char} {t : List Char}
    (ht : t ∈ rustLines s) : '\n' ∉ t := by
  obtain ⟨u, hu, hsub⟩ := rustLinesAux_mem ht
  intro hmem
  exact splitNL_no_nl s u hu (hsub.subset hmem)

theorem rustLines_joinNL : ∀ {ts : List (List Char)}, ts ≠ [] →
    (∀ t ∈ ts, '\n' ∉ t ∧ t.getLast? ≠ some '\r') →
    rustLines (joinNL ts ++ ['\n']) = ts := by
  intro ts
  induction ts with
  | nil => intro h _; exact absurd rfl h
  | cons t ts ih =>
      intro _ h
      cases ts with
      | nil =>
          have hnl : '\n' ∉ t := (h t (by simp)).1
          have hcr : t.getLast? ≠ some '\r' := (h t (by simp)).2
          show rustLines (t ++ ['\n']) = [t]
          have : t ++ ['\n'] = t ++ '\n' :: [] := rfl
          rw [rustLines, this, splitNL_cons_nl [] hnl]
          simp [splitNL, rustLinesAux, stripCR_eq_self hcr]
      | cons t2 ts2 =>
          have hnl : '\n' ∉ t := (h t (by simp)).1
          have hcr : t.getLast? ≠ some '\r' := (h t (by simp)).2
          have hj : joinNL (t :: t2 :: ts2) ++ ['\n'] =
              t ++ '\n' :: (joinNL (t2 :: ts2) ++ ['\n']) := by
            simp [joinNL]
          rw [rustLines, hj, splitNL_cons_nl _ hnl,
            rustLinesAux_cons t (splitNL_ne_nil _), stripCR_eq_self hcr]
          have := ih (by simp) (fun u hu => h u (by simp [hu]))
          rw [rustLines] at this
          rw [this]

theorem rustLinesAux_append_nil_length :
    ∀ (ps : List (List Char)), (rustLinesAux (ps ++ [[]])).length = ps.length := by
  intro ps
  induction ps with
  | nil => simp [rustLinesAux]
  | cons p ps ih =>
      have : (p :: ps) ++ [([] : List Char)] = p :: (ps ++ [[]]) := by simp
      rw [this, rustLinesAux_cons p (by simp), List.length_cons, ih, List.length_cons]

theorem rustLines_append_nl_length (s : List Char) :
    (rustLines (s ++ ['\n'])).length = s.count '\n' + 1 := by
  rw [rustLines, splitNL_append_nl, rustLinesAux_append_nil_length, splitNL_length]

theorem joinNL_count : ∀ {ts : List (List Char)}, ts ≠ [] →
    (joinNL ts).count '\n' + 1 = (ts.map (List.count '\n')).sum + ts.length := by
  intro ts
  induction ts with
  | nil => intro h; exact absurd rfl h
  | cons t ts ih =>
      intro _
      cases ts with
      | nil => simp [joinNL]
      | cons t2 ts2 =>
          have hj : joinNL (t :: t2 :: ts2) = t ++ '\n' :: joinNL (t2 :: ts2) := by
            simp [joinNL]
          rw [hj]
          have := ih (by simp)
          simp only [List.count_append, List.count_cons, List.map_cons, List.sum_cons,
            List.length_cons] at this ⊢
          simp at this ⊢
          omega

theorem joinNL_eq_nil : ∀ {ts : List (List Char)}, joinNL ts = [] → ∀ t ∈ ts, t = [] := by
  intro ts
  induction ts with
  | nil => intro _ t ht; simp at ht
  | cons t ts ih =>
      intro h u hu
      cases ts with
      | nil =>
          simp [joinNL] at h
          rcases List.mem_cons.mp hu with h1 | h1
          · rw [h1, h]
          · simp at h1
      | cons t2 ts2 =>
          have hj : joinNL (t :: t2 :: ts2) = t ++ '\n' :: joinNL (t2 :: ts2) := by
            simp [joinNL]
          rw [hj] at h
          exact absurd h (by simp)

theorem joinNL_eq_intercalate : ∀ (ts : List (List Char)),
    joinNL ts = List.intercalate ['\n'] ts := by
  intro ts
  induction ts with
  | nil => simp [joinNL, List.intercalate]
  | cons t ts ih =>
      cases ts with
      | nil => simp [joinNL, List.intercalate]
      | cons t2 ts2 =>
          have hj : joinNL (t :: t2 :: ts2) = t ++ '\n' :: joinNL (t2 :: ts2) := by
            simp [joinNL]
          rw [hj, ih]
          simp [List.intercalate, List.intersperse]

/-! ### Stability of decoded values and per-line round-tripping -/

/-- A decoded value is stable when re-serializing and re-decoding it is the
identity: no surrounding whitespace, not starting with a double or single
quote, and containing no hash and no line feed. -/
def stableValue (v : List Char) : Prop :=
  trim v = v ∧ v.head? ≠ some cDQ ∧ v.head? ≠ some cSQ ∧ '#' ∉ v ∧ '\n' ∉ v

instance (v : List Char) : Decidable (stableValue v) := by
  unfold stableValue; infer_instance

/-- Lines whose rendered text classifies back to text that renders identically:
`Empty` raws are all-whitespace single-line without a trailing carriage return,
`Comment` raws are single-line non-blank genuine comments (or contain no `=`),
and `KeyValue` lines have a trimmed, `=`-free, single-line key and a stable
value. -/
def lineSafe : EnvLine → Prop
  | .keyValue k v => trim k = k ∧ '=' ∉ k ∧ '\n' ∉ k ∧ stableValue v
  | .comment raw =>
      trim raw ≠ [] ∧ ((trimStart raw).head? = some '#' ∨ '=' ∉ raw) ∧
      '\n' ∉ raw ∧ raw.getLast? ≠ some '\r'
  | .empty raw => trim raw = [] ∧ '\n' ∉ raw ∧ raw.getLast? ≠ some '\r'

instance : DecidablePred lineSafe := fun l =>
  match l with
  | .keyValue k v => inferInstanceAs (Decidable (trim k = k ∧ '=' ∉ k ∧ '\n' ∉ k ∧ stableValue v))
  | .comment raw => inferInstanceAs (Decidable (trim raw ≠ [] ∧
      ((trimStart raw).head? = some '#' ∨ '=' ∉ raw) ∧ '\n' ∉ raw ∧ raw.getLast? ≠ some '\r'))
  | .empty raw => inferInstanceAs (Decidable (trim raw = [] ∧ '\n' ∉ raw ∧
      raw.getLast? ≠ some '\r'))

/-- The part of `lineSafe` that is not automatic for classifier output: the
decoded value of a `KeyValue` must be stable, and a raw `Comment`/`Empty` line
must not end with a carriage return. -/
def reparseStable : EnvLine → Prop
  | .keyValue _ v => stableValue v
  | .comment raw => raw.getLast? ≠ some '\r'
  | .empty raw => raw.getLast? ≠ some '\r'

instance : DecidablePred reparseStable := fun l =>
  match l with
  | .keyValue _ v => inferInstanceAs (Decidable (stableValue v))
  | .comment raw => inferInstanceAs (Decidable (raw.getLast? ≠ some '\r'))
  | .empty raw => inferInstanceAs (Decidable (raw.getLast? ≠ some '\r'))

theorem stable_parse {v : List Char} (h : stableValue v) : parse_value v = v := by
  obtain ⟨ht, hdq, hsq, hh, _⟩ := h
  have hts : trimStart v = v := trimStart_eq_self_of_trim ht
  have hte : trimEnd v = v := trimEnd_eq_self_of_trim ht
  by_cases hv : v = []
  · subst hv; rfl
  · have htw : v.takeWhile (fun c => c != '#') = v :=
      tw_all fun c hc => by
        have : c ≠ '#' := fun he => hh (he ▸ hc)
        simp [this]
    simp only [parse_value, hts, if_neg hv, if_neg hdq, if_neg hsq, parse_unquoted, htw, hte]

theorem lineRound {l : EnvLine} (h : lineSafe l) :
    renderLine (classifyLine (renderLine l)) = renderLine l ∧
    '\n' ∉ renderLine l ∧ (renderLine l).getLast? ≠ some '\r' := by
  cases l with
  | empty raw =>
      obtain ⟨h1, h2, h3⟩ := h
      refine ⟨?_, h2, h3⟩
      simp [renderLine, classifyLine, h1]
  | comment raw =>
      obtain ⟨h1, h2, h3, h4⟩ := h
      refine ⟨?_, h3, h4⟩
      show renderLine (classifyLine raw) = raw
      by_cases hh : (trimStart raw).head? = some '#'
      · simp [classifyLine, h1, hh, renderLine]
      · have h2' : '=' ∉ raw := by
          rcases h2 with h2 | h2
          · exact absurd h2 hh
          · exact h2
        simp [classifyLine, h1, hh, h2', renderLine]
  | keyValue k v =>
      obtain ⟨hk, hke, hkn, hv⟩ := h
      have hvt := hv.1
      have hvn := hv.2.2.2.2
      have hmem : '=' ∈ k ++ '=' :: v := by simp
      have hne : trim (k ++ '=' :: v) ≠ [] := trim_ne_nil hmem (by decide)
      have hnl : '\n' ∉ k ++ '=' :: v := by
        intro hin
        rcases List.mem_append.mp hin with hin | hin
        · exact hkn hin
        · rcases List.mem_cons.mp hin with hin | hin
          · cases hin
          · exact hvn hin
      have hlast : (k ++ '=' :: v).getLast? ≠ some '\r' := by
        rw [List.getLast?_append_cons]
        cases hv2 : v with
        | nil => simp
        | cons a v2 =>
            rw [List.getLast?_cons_cons]
            intro hcon
            have hws : isWS '\r' = false := by
              refine trimEnd_getLast_not_ws (trimEnd_eq_self_of_trim hvt) ?_
              rw [hv2]
              exact hcon
            simp [isWS] at hws
      refine ⟨?_, hnl, hlast⟩
      show renderLine (classifyLine (k ++ '=' :: v)) = k ++ '=' :: v
      by_cases hh : (trimStart (k ++ '=' :: v)).head? = some '#'
      · simp [classifyLine, hne, hh, renderLine]
      · have hkall : ∀ a ∈ k, (a != '=') = true := fun a ha => by
          have : a ≠ '=' := fun he => hke (he ▸ ha)
          simp [this]
        have htw : (k ++ '=' :: v).takeWhile (fun c => c != '=') = k :=
          tw_append v hkall (by decide)
        have hdw : (k ++ '=' :: v).dropWhile (fun c => c != '=') = '=' :: v :=
          dw_append v hkall (by decide)
        simp [classifyLine, hne, hh, hmem, htw, hdw, hk, stable_parse hv, renderLine]

/-- Every line produced by the classifier satisfies the structural parts of
`lineSafe`; only the `reparseStable` conditions have to be assumed. -/
theorem classify_lineSafe {t : List Char} (hnl : '\n' ∉ t)
    (hr : reparseStable (classifyLine t)) : lineSafe (classifyLine t) := by
  by_cases h1 : trim t = []
  · have hc : classifyLine t = .empty t := by simp [classifyLine, h1]
    rw [hc] at hr ⊢
    exact ⟨h1, hnl, hr⟩
  · by_cases h2 : (trimStart t).head? = some '#'
    · have hc : classifyLine t = .comment t := by simp [classifyLine, h1, h2]
      rw [hc] at hr ⊢
      exact ⟨h1, Or.inl h2, hnl, hr⟩
    · by_cases h3 : '=' ∈ t
      · have hc : classifyLine t =
            .keyValue (trim (t.takeWhile (fun c => c != '=')))
              (parse_value ((t.dropWhile (fun c => c != '=')).drop 1)) := by
          simp [classifyLine, h1, h2, h3]
        rw [hc] at hr ⊢
        refine ⟨trim_trim _, ?_, ?_, hr⟩
        · intro hin
          have hin2 : '=' ∈ t.takeWhile (fun c => c != '=') :=
            (trim_sublist _).subset hin
          have := List.mem_takeWhile_imp hin2
          simp at this
        · intro hin
          have hin2 : '\n' ∈ t.takeWhile (fun c => c != '=') :=
            (trim_sublist _).subset hin
          exact hnl ((List.takeWhile_sublist _).subset hin2)
      · have hc : classifyLine t = .comment t := by simp [classifyLine, h1, h2, h3]
        rw [hc] at hr ⊢
        exact ⟨h1, Or.inr h3, hnl, hr⟩

/-- Core round-trip fact shared by the idempotence and round-trip claims:
serializing, re-classifying and re-serializing a sequence of `lineSafe` lines
reproduces the first serialization. -/
theorem serialize_classify_serialize {lines : List EnvLine}
    (h : ∀ l ∈ lines, lineSafe l) :
    write_env_file (parse_env_file (write_env_file lines)) = write_env_file lines := by
  by_cases hnil : lines = []
  · subst hnil; decide
  · by_cases hc : joinNL (lines.map renderLine) = []
    · have hw : write_env_file lines = [] := by simp [write_env_file, hc]
      rw [hw]
      decide
    · have hw : write_env_file lines = joinNL (lines.map renderLine) ++ ['\n'] := by
        simp [write_env_file, hc]
      have hside : ∀ t ∈ lines.map renderLine, '\n' ∉ t ∧ t.getLast? ≠ some '\r' := by
        intro t ht
        obtain ⟨l, hl, rfl⟩ := List.mem_map.mp ht
        exact (lineRound (h l hl)).2
      have hts : lines.map renderLine ≠ [] := by
        intro hx
        exact hnil (List.map_eq_nil_iff.mp hx)
      have hrl : rustLines (write_env_file lines) = lines.map renderLine := by
        rw [hw]; exact rustLines_joinNL hts hside
      have hparse : parse_env_file (write_env_file lines) =
          (lines.map renderLine).map classifyLine := by
        rw [parse_env_file, hrl]
      have hmap : ((lines.map renderLine).map classifyLine).map renderLine =
          lines.map renderLine := by
        rw [List.map_map, List.map_map]
        exact List.map_congr_left fun l hl => (lineRound (h l hl)).1
      rw [hparse, write_env_file, hmap, hw]
      simp [hc]

/-! ### Facts about the shell escaper -/

theorem shellScan_append (b : List Char) : ∀ (a : List Char) (st : SState),
    shellScan st (a ++ b) =
      (match shellScan st a with
       | none => none
       | some st2 => shellScan st2 b) := by
  intro a
  induction a with
  | nil => intro st; rfl
  | cons c a ih =>
      intro st
      show shellScan st (c :: (a ++ b)) = _
      simp only [shellScan]
      cases hs : shellStep st c with
      | none => rfl
      | some st2 => exact ih st2

theorem escChar_dq (c : Char) : shellScan .dq (escChar c) = some .dq := by
  simp only [escChar]
  split_ifs with h1 h2 h3 h4 h5 h6 h7 h8
  · subst h1; decide
  · subst h2; decide
  · subst h3; decide
  · subst h4; decide
  · subst h5; decide
  · subst h6; decide
  · subst h7; decide
  · subst h8; decide
  · simp [shellScan, shellStep, h1, h2, h3, h4, h6, h7]

theorem escBody_scan : ∀ (v : List Char),
    shellScan .dq ((v.map escChar).flatten ++ [cDQ]) = some .unq := by
  intro v
  induction v with
  | nil => decide
  | cons c v ih =>
      have hsp : ((c :: v).map escChar).flatten ++ [cDQ] =
          escChar c ++ ((v.map escChar).flatten ++ [cDQ]) := by simp
      rw [hsp, shellScan_append, escChar_dq]
      exact ih

theorem scan_unq_all : ∀ {v : List Char}, (∀ c ∈ v, triggerChar c = false) →
    shellScan .unq v = some .unq := by
  intro v
  induction v with
  | nil => intro _; rfl
  | cons c v ih =>
      intro h
      have hc : triggerChar c = false := h c (by simp)
      have hdq : c ≠ cDQ := by
        intro he
        rw [he] at hc
        simp [triggerChar] at hc
      have hstep : shellStep .unq c = some .unq := by
        simp [shellStep, hdq, hc]
      simp only [shellScan, hstep]
      exact ih fun a ha => h a (by simp [ha])

theorem escChar_len (c : Char) : 1 ≤ (escChar c).length := by
  simp only [escChar]
  split_ifs <;> simp

theorem escFlat_len : ∀ (v : List Char), v.length ≤ ((v.map escChar).flatten).length := by
  intro v
  induction v with
  | nil => simp
  | cons c v ih =>
      have hc := escChar_len c
      simp only [List.map_cons, List.flatten_cons, List.length_append, List.length_cons]
      omega

/-- C1: for every string `s`, `shell_escape s` is a token that a shell syntax
checker accepts as the right-hand side of an assignment: quotes are balanced,
no shell-significant (trigger-set) character appears outside the wrapping
double quotes, and inside them every dollar, backtick, double quote and raw
line break is backslash-escaped. -/
theorem shell_escape_safe (value : List Char) : shellSafeToken (shell_escape value) := by
  unfold shellSafeToken shell_escape
  by_cases h : value.any triggerChar = true
  · rw [if_pos h]
    have hstep : shellStep .unq cDQ = some .dq := by decide
    simp only [shellScan, hstep]
    exact escBody_scan value
  · rw [if_neg h]
    refine scan_unq_all ?_
    intro c hc
    cases hct : triggerChar c with
    | false => rfl
    | true => exact absurd (List.any_eq_true.mpr ⟨c, hc, hct⟩) h

/-- C5: `shell_escape` is the identity exactly on strings containing no
trigger-set character. -/
theorem shell_escape_id_iff (value : List Char) :
    shell_escape value = value ↔ value.any triggerChar = false := by
  constructor
  · intro h
    cases hb : value.any triggerChar with
    | false => rfl
    | true =>
        exfalso
        have hlen : value.length < (shell_escape value).length := by
          unfold shell_escape
          rw [if_pos hb]
          have := escFlat_len value
          simp only [List.length_cons, List.length_append, List.length_singleton]
          omega
        rw [h] at hlen
        omega
  · intro h
    simp [shell_escape, h]

/-- C2 (amended): one classify-then-serialize pass is a fixed point of further
passes provided the first pass produces only reparse-stable lines: every
decoded value has no surrounding whitespace, does not start with a double or
single quote and contains no `#` and no line feed, and no comment or blank raw
line ends with a carriage return.  The unrestricted claim is refuted by
`normalize_idempotent_cex`. -/
theorem normalize_idempotent (x : List Char)
    (h : ∀ l ∈ parse_env_file x, reparseStable l) :
    write_env_file (parse_env_file (write_env_file (parse_env_file x))) =
      write_env_file (parse_env_file x) := by
  refine serialize_classify_serialize ?_
  intro l hl
  have hl2 := hl
  simp only [parse_env_file] at hl2
  obtain ⟨t, ht, rfl⟩ := List.mem_map.mp hl2
  exact classify_lineSafe (rustLines_no_nl ht) (h _ hl)

/-- Witness for C2: the input `A=1\n#c` satisfies the stability hypothesis and
a second normalization pass is a no-op on it. -/
theorem normalize_idempotent_witness :
    (∀ l ∈ parse_env_file ['A', '=', '1', '\n', '#', 'c'], reparseStable l) ∧
    write_env_file (parse_env_file (write_env_file
        (parse_env_file ['A', '=', '1', '\n', '#', 'c']))) =
      write_env_file (parse_env_file ['A', '=', '1', '\n', '#', 'c']) :=
  ⟨by decide, normalize_idempotent ['A', '=', '1', '\n', '#', 'c'] (by decide)⟩

/-- Counterexample to C2 as stated: for the input `K="#"` the first pass
serializes to `K=#` (quotes dropped), and the second pass then strips `#` as
an inline comment, so the passes differ. -/
theorem normalize_idempotent_cex :
    write_env_file (parse_env_file (write_env_file
        (parse_env_file ['K', '=', cDQ, '#', cDQ]))) ≠
      write_env_file (parse_env_file ['K', '=', cDQ, '#', cDQ]) := by decide

/-- C3 (amended): serialize-classify-serialize is the identity on sequences of
lines that are `lineSafe`: `Comment`/`Empty` raws satisfying the classifier
invariant (single physical line, no trailing carriage return, blank or
`#`-leading or `=`-free), and `KeyValue` lines whose `key=value` form has no
surrounding spaces and no quoting, with additionally no `=` or line feed in the
key and no `#` or line feed in the value.  The unrestricted claim is refuted by
`roundtrip_identity_cex`. -/
theorem roundtrip_identity (lines : List EnvLine) (h : ∀ l ∈ lines, lineSafe l) :
    write_env_file (parse_env_file (write_env_file lines)) = write_env_file lines :=
  serialize_classify_serialize h

/-- Witness for C3 on a comment, a blank line and a plain key/value pair. -/
theorem roundtrip_identity_witness :
    (∀ l ∈ [EnvLine.comment ['#', 'c'], EnvLine.empty [], EnvLine.keyValue ['A'] ['1']],
        lineSafe l) ∧
    write_env_file (parse_env_file (write_env_file
        [EnvLine.comment ['#', 'c'], EnvLine.empty [], EnvLine.keyValue ['A'] ['1']])) =
      write_env_file
        [EnvLine.comment ['#', 'c'], EnvLine.empty [], EnvLine.keyValue ['A'] ['1']] :=
  ⟨by decide,
    roundtrip_identity
      [EnvLine.comment ['#', 'c'], EnvLine.empty [], EnvLine.keyValue ['A'] ['1']]
      (by decide)⟩

/-- Counterexample to C3 as stated: `KeyValue{K, a#b}` meets the stated
conditions (no surrounding spaces, no quoting), but its serialized form
`K=a#b` re-classifies with the value truncated at `#`. -/
theorem roundtrip_identity_cex :
    write_env_file (parse_env_file (write_env_file
        [EnvLine.keyValue ['K'] ['a', '#', 'b']])) ≠
      write_env_file [EnvLine.keyValue ['K'] ['a', '#', 'b']] := by decide

/-! ### The editor: `set_env_vars` -/

theorem set_env_vars_stops_at_malformed : ∀ (pre : List (List Char)) (lines : List EnvLine)
    (p : List Char) (post : List (List Char)),
    (∀ q ∈ pre, '=' ∈ q) → '=' ∉ p →
    set_env_vars lines (pre ++ p :: post) =
      ((set_env_vars lines pre).1, some (SetError.malformedPair p)) := by
  intro pre
  induction pre with
  | nil =>
      intro lines p post _ hp
      have hone : set_one lines p = .error (.malformedPair p) := by
        simp [set_one, hp]
      show set_env_vars lines (p :: post) = _
      simp [set_env_vars, hone]
  | cons q pre ih =>
      intro lines p post hpre hp
      have hq : '=' ∈ q := hpre q (by simp)
      have hl2 : set_one lines q = .ok (apply_pair lines
          (trim (q.takeWhile (fun c => c != '=')))
          ((q.dropWhile (fun c => c != '=')).drop 1)) := by
        simp [set_one, hq]
      have e1 : set_env_vars lines ((q :: pre) ++ p :: post) =
          set_env_vars (apply_pair lines (trim (q.takeWhile (fun c => c != '=')))
            ((q.dropWhile (fun c => c != '=')).drop 1)) (pre ++ p :: post) := by
        simp [set_env_vars, hl2]
      have e2 : set_env_vars lines (q :: pre) =
          set_env_vars (apply_pair lines (trim (q.takeWhile (fun c => c != '=')))
            ((q.dropWhile (fun c => c != '=')).drop 1)) pre := by
        simp [set_env_vars, hl2]
      rw [e1, e2, ih _ p post (fun r hr => hpre r (by simp [hr])) hp]

/-- C4: `set_env_vars` processes its pairs in order; at the first pair lacking
`=` it stops immediately with a malformed-pair error carrying the offending
string, keeping the mutations of the earlier well-formed pairs; when the
malformed pair is the only pair of the call, the sequence is unmodified. -/
theorem set_malformed_aborts (lines : List EnvLine) (pre : List (List Char))
    (p : List Char) (post : List (List Char))
    (hpre : ∀ q ∈ pre, '=' ∈ q) (hp : '=' ∉ p) :
    set_env_vars lines (pre ++ p :: post) =
      ((set_env_vars lines pre).1, some (SetError.malformedPair p)) ∧
    set_env_vars lines [p] = (lines, some (SetError.malformedPair p)) := by
  refine ⟨set_env_vars_stops_at_malformed pre lines p post hpre hp, ?_⟩
  have h := set_env_vars_stops_at_malformed [] lines p [] (by simp) hp
  simpa [set_env_vars] using h

/-- Witness for C4: setting `A=1` then the pair `bad` applies `A=1`, keeps it,
and reports `bad`; with `bad` alone the sequence is unmodified. -/
theorem set_malformed_aborts_witness :
    ((∀ q ∈ [['A', '=', '1']], '=' ∈ q) ∧ '=' ∉ ['b', 'a', 'd']) ∧
    (set_env_vars [] ([['A', '=', '1']] ++ ['b', 'a', 'd'] :: []) =
        ((set_env_vars [] [['A', '=', '1']]).1, some (SetError.malformedPair ['b', 'a', 'd'])) ∧
      set_env_vars [] [['b', 'a', 'd']] =
        ([], some (SetError.malformedPair ['b', 'a', 'd']))) :=
  ⟨⟨by decide, by decide⟩,
    set_malformed_aborts [] [['A', '=', '1']] ['b', 'a', 'd'] [] (by decide) (by decide)⟩

/-- C8: a well-formed pair is split at its first `=`; the stored key is the
text before it with surrounding whitespace trimmed, and the stored value is the
raw text after it, taken verbatim (no quote stripping, escape processing or
trimming). -/
theorem set_pair_split (lines : List EnvLine) (k v : List Char) (hk : '=' ∉ k) :
    set_env_vars lines [k ++ '=' :: v] = (apply_pair lines (trim k) v, none) := by
  have hkall : ∀ a ∈ k, (a != '=') = true := fun a ha => by
    have : a ≠ '=' := fun he => hk (he ▸ ha)
    simp [this]
  have hmem : '=' ∈ k ++ '=' :: v := by simp
  have htw : (k ++ '=' :: v).takeWhile (fun c => c != '=') = k :=
    tw_append v hkall (by decide)
  have hdw : (k ++ '=' :: v).dropWhile (fun c => c != '=') = '=' :: v :=
    dw_append v hkall (by decide)
  simp [set_env_vars, set_one, hmem, htw, hdw]

/-- Witness for C8: `set` with the single pair `K="v"` stores key `K` and the
verbatim value `"v"`, quotes included. -/
theorem set_pair_split_witness :
    ('=' ∉ ['K']) ∧
    set_env_vars [] [['K', '=', cDQ, 'v', cDQ]] =
      (apply_pair [] (trim ['K']) [cDQ, 'v', cDQ], none) ∧
    apply_pair [] (trim ['K']) [cDQ, 'v', cDQ] =
      [EnvLine.keyValue ['K'] [cDQ, 'v', cDQ]] :=
  ⟨by decide, set_pair_split [] ['K'] [cDQ, 'v', cDQ] (by decide), by decide⟩

/-! ### The unquoted branch of the decoder -/

/-- C6 (amended): in the unquoted branch the scan stops at the first `#`
whether or not a backslash precedes it (there is no escape handling in
`parse_unquoted`), or runs to the end of the string when no `#` occurs, and the
result is trimmed of trailing whitespace.  The original claim's assertion that
a backslash-preceded `#` does not terminate the scan is refuted by
`unquoted_hash_cex`. -/
theorem unquoted_scan (c : Char) (a rest : List Char)
    (hws : isWS c = false) (hdq : c ≠ cDQ) (hsq : c ≠ cSQ) (hh : '#' ∉ c :: a) :
    parse_value ((c :: a) ++ '#' :: rest) = trimEnd (c :: a) ∧
    parse_value (c :: a) = trimEnd (c :: a) := by
  have hall : ∀ x ∈ c :: a, (x != '#') = true := fun x hx => by
    have : x ≠ '#' := fun he => hh (he ▸ hx)
    simp [this]
  constructor
  · have hts : trimStart ((c :: a) ++ '#' :: rest) = (c :: a) ++ '#' :: rest := by
      show List.dropWhile isWS (c :: (a ++ '#' :: rest)) = _
      rw [dw_cons_of_neg hws]
      rfl
    have htw : ((c :: a) ++ '#' :: rest).takeWhile (fun x => x != '#') = c :: a :=
      tw_append rest hall (by decide)
    have h1 : (c :: a) ++ '#' :: rest ≠ [] := by simp
    have h2 : ((c :: a) ++ '#' :: rest).head? ≠ some cDQ := by simp [hdq]
    have h3 : ((c :: a) ++ '#' :: rest).head? ≠ some cSQ := by simp [hsq]
    simp only [parse_value, hts, if_neg h1, if_neg h2, if_neg h3, parse_unquoted, htw]
  · have hts : trimStart (c :: a) = c :: a := dw_cons_of_neg hws
    have htw : (c :: a).takeWhile (fun x => x != '#') = c :: a := tw_all hall
    have h1 : c :: a ≠ [] := by simp
    have h2 : (c :: a).head? ≠ some cDQ := by simp [hdq]
    have h3 : (c :: a).head? ≠ some cSQ := by simp [hsq]
    simp only [parse_value, hts, if_neg h1, if_neg h2, if_neg h3, parse_unquoted, htw]

/-- Counterexample to C6 as stated: decoding the unquoted value `a\#b` stops at
the `#` even though a backslash precedes it, yielding `a\` and dropping `b`. -/
theorem unquoted_hash_cex :
    parse_value ['a', '\\', '#', 'b'] = ['a', '\\'] ∧
    'b' ∉ parse_value ['a', '\\', '#', 'b'] := by decide

/-- Witness for C6 on the input `a\#b`. -/
theorem unquoted_scan_witness :
    (isWS 'a' = false ∧ 'a' ≠ cDQ ∧ 'a' ≠ cSQ ∧ '#' ∉ ['a', '\\']) ∧
    (parse_value (['a', '\\'] ++ '#' :: ['b']) = trimEnd ['a', '\\'] ∧
      parse_value ['a', '\\'] = trimEnd ['a', '\\']) :=
  ⟨⟨by decide, by decide, by decide, by decide⟩,
    unquoted_scan 'a' ['\\'] ['b'] (by decide) (by decide) (by decide) (by decide)⟩

/-! ### The serializer -/

/-- C7: the serializer joins the rendered lines with a single line feed and,
when the joined text is non-empty, appends exactly one trailing line feed; the
empty sequence serializes to the empty string with no trailing newline. -/
theorem serialize_join (lines : List EnvLine) :
    write_env_file lines =
      (if List.intercalate ['\n'] (lines.map renderLine) = [] then []
       else List.intercalate ['\n'] (lines.map renderLine) ++ ['\n']) ∧
    write_env_file [] = [] := by
  constructor
  · show (if joinNL (lines.map renderLine) = [] then []
        else joinNL (lines.map renderLine) ++ ['\n']) = _
    rw [joinNL_eq_intercalate]
  · rfl

/-- C9: when some `KeyValue` of the sequence has a line feed inside its value,
the serialized text has more physical lines than the sequence has elements
(values are emitted verbatim, with no re-escaping), and re-classifying the
serialized text yields more elements than the original sequence. -/
theorem value_newline_inflates (lines : List EnvLine) (k v : List Char)
    (hmem : EnvLine.keyValue k v ∈ lines) (hnl : '\n' ∈ v) :
    lines.length < (rustLines (write_env_file lines)).length ∧
    lines.length < (parse_env_file (write_env_file lines)).length := by
  have hrmem : renderLine (.keyValue k v) ∈ lines.map renderLine :=
    List.mem_map_of_mem _ hmem
  have hrender_ne : renderLine (.keyValue k v) ≠ [] := by simp [renderLine]
  have hts_ne : lines.map renderLine ≠ [] := List.ne_nil_of_mem hrmem
  have hcontent : joinNL (lines.map renderLine) ≠ [] := fun hc =>
    hrender_ne (joinNL_eq_nil hc _ hrmem)
  have hw : write_env_file lines = joinNL (lines.map renderLine) ++ ['\n'] := by
    simp [write_env_file, hcontent]
  have hcount1 : 1 ≤ (renderLine (.keyValue k v)).count '\n' := by
    have hmm : '\n' ∈ renderLine (.keyValue k v) := by simp [renderLine, hnl]
    exact List.count_pos_iff.mpr hmm
  have hsum : (renderLine (.keyValue k v)).count '\n' ≤
      ((lines.map renderLine).map (List.count '\n')).sum :=
    List.single_le_sum (fun b _ => Nat.zero_le b) _ (List.mem_map_of_mem _ hrmem)
  have hjc := joinNL_count hts_ne
  have hlen : (rustLines (write_env_file lines)).length =
      (joinNL (lines.map renderLine)).count '\n' + 1 := by
    rw [hw, rustLines_append_nl_length]
  have hmaplen : (lines.map renderLine).length = lines.length := by simp
  have hplen : (parse_env_file (write_env_file lines)).length =
      (rustLines (write_env_file lines)).length := by
    simp [parse_env_file]
  rw [hmaplen] at hjc
  constructor
  · omega
  · omega

/-- Witness for C9: one `KeyValue` with value `a<LF>b` serializes to two
physical lines, which classify into two elements. -/
theorem value_newline_inflates_witness :
    (EnvLine.keyValue ['K'] ['a', '\n', 'b'] ∈ [EnvLine.keyValue ['K'] ['a', '\n', 'b']] ∧
      '\n' ∈ ['a', '\n', 'b']) ∧
    ([EnvLine.keyValue ['K'] ['a', '\n', 'b']].length <
        (rustLines (write_env_file [EnvLine.keyValue ['K'] ['a', '\n', 'b']])).length ∧
      [EnvLine.keyValue ['K'] ['a', '\n', 'b']].length <
        (parse_env_file (write_env_file [EnvLine.keyValue ['K'] ['a', '\n', 'b']])).length) :=
  ⟨⟨by decide, by decide⟩,
    value_newline_inflates [EnvLine.keyValue ['K'] ['a', '\n', 'b']] ['K'] ['a', '\n', 'b']
      (by decide) (by decide)⟩

/-- C10: a non-blank, non-comment line with only whitespace (or nothing)
before its first `=` classifies to a `KeyValue` with the empty key, and
serializes as `=` immediately followed by the decoded value. -/
theorem empty_key_line (line : List Char)
    (hmem : '=' ∈ line)
    (hpre : ∀ c ∈ line.takeWhile (fun c => c != '='), isWS c = true)
    (hnb : trim line ≠ [])
    (hns : (trimStart line).head? ≠ some '#') :
    classifyLine line =
      .keyValue [] (parse_value ((line.dropWhile (fun c => c != '=')).drop 1)) ∧
    renderLine (classifyLine line) =
      '=' :: parse_value ((line.dropWhile (fun c => c != '=')).drop 1) := by
  have hkey : trim (line.takeWhile (fun c => c != '=')) = [] := trim_all_ws hpre
  have hclass : classifyLine line =
      .keyValue [] (parse_value ((line.dropWhile (fun c => c != '=')).drop 1)) := by
    simp [classifyLine, hnb, hns, hmem, hkey]
  exact ⟨hclass, by rw [hclass]; rfl⟩

/-- Witness for C10 on the line `<space>=x`. -/
theorem empty_key_line_witness :
    ('=' ∈ [' ', '=', 'x'] ∧
      (∀ c ∈ [' ', '=', 'x'].takeWhile (fun c => c != '='), isWS c = true) ∧
      trim [' ', '=', 'x'] ≠ [] ∧ (trimStart [' ', '=', 'x']).head? ≠ some '#') ∧
    (classifyLine [' ', '=', 'x'] =
        .keyValue [] (parse_value (([' ', '=', 'x'].dropWhile (fun c => c != '=')).drop 1)) ∧
      renderLine (classifyLine [' ', '=', 'x']) =
        '=' :: parse_value (([' ', '=', 'x'].dropWhile (fun c => c != '=')).drop 1)) :=
  ⟨⟨by decide, by decide, by decide, by decide⟩,
    empty_key_line [' ', '=', 'x'] (by decide) (by decide) (by decide) (by decide)⟩

end Dotenvk
